import Mathlib

/-
Verification development for the Revoa import pipeline
(scripts/revoa_import.py).  The Python source is shallowly embedded:
money amounts and timestamps (Python floats holding decimal dollar /
second values) are modelled as rationals, supplier page URLs as natural
numbers (their identity is all the embedded code compares), and fallible
operations as Option values.  Each definition mirrors one Python
function of the script; the mirrored lines are cited in the doc
comments.
-/

namespace Revoa

/-! Section: Pricing rule engine (enforce_rule, revoa_import.py lines 860-878) -/

/-- Which branch of enforce_rule produced the decision; the Python code
returns a human-readable reason string, modelled here as a tag since no
claim depends on the string contents. -/
inductive RuleReason where
  | softPassBranch
  | aeMissing
  | amzMissing
  | passBranch
  | failBranch
deriving DecidableEq

/-- The (passed, reason, soft_flag) triple returned by enforce_rule. -/
structure PriceDecision where
  passed : Bool
  reason : RuleReason
  soft : Bool
deriving DecidableEq

/-- Embedding of enforce_rule(ae_total, amz_total, min_spread=20.0,
soft_pass=False).  Mirrors the source line by line: supplier (AliExpress)
total missing gives a soft pass only when soft_pass is set and the
Amazon total is known; a missing Amazon total always fails; with both
totals known it passes iff the half rule or the spread rule holds. -/
def enforce_rule (ae_total amz_total : Option ℚ) (min_spread : ℚ) (soft_pass : Bool) :
    PriceDecision :=
  match ae_total with
  | none =>
    match amz_total with
    | some _ =>
      if soft_pass then ⟨true, RuleReason.softPassBranch, true⟩
      else ⟨false, RuleReason.aeMissing, false⟩
    | none => ⟨false, RuleReason.aeMissing, false⟩
  | some ae =>
    match amz_total with
    | none => ⟨false, RuleReason.amzMissing, false⟩
    | some amz =>
      let spread := amz - ae
      if ae ≤ amz * (1/2) ∨ spread ≥ min_spread then ⟨true, RuleReason.passBranch, false⟩
      else ⟨false, RuleReason.failBranch, false⟩

/-- Claim C1: with both totals known, enforce_rule passes iff the
supplier total is at most half the retail total or the spread reaches
min_spread; a supplier total exactly half the retail total passes, and
the soft flag is false whenever both totals are known. -/
theorem enforce_rule_both_known (ae amz min_spread : ℚ) (soft_pass : Bool) :
    ((enforce_rule (some ae) (some amz) min_spread soft_pass).passed = true ↔
      (ae ≤ amz * (1/2) ∨ amz - ae ≥ min_spread))
    ∧ (enforce_rule (some ae) (some amz) min_spread soft_pass).soft = false
    ∧ (enforce_rule (some (amz * (1/2))) (some amz) min_spread soft_pass).passed = true := by
  refine ⟨?_, ?_, ?_⟩
  · simp only [enforce_rule]
    split_ifs with h <;> simp only [ge_iff_le, one_div] at h <;> simp [h]
  · simp only [enforce_rule]
    split_ifs with h <;> rfl
  · simp only [enforce_rule]
    split_ifs with h
    · rfl
    · exact absurd (Or.inl le_rfl) h

/-- Claim C6: with the supplier total unknown, a known retail total and
soft-pass allowed yield a passed, soft decision; with soft-pass not
allowed the decision never passes (whatever the retail total is). -/
theorem enforce_rule_supplier_unknown (retail min_spread : ℚ) :
    ((enforce_rule none (some retail) min_spread true).passed = true
      ∧ (enforce_rule none (some retail) min_spread true).soft = true)
    ∧ (enforce_rule none (some retail) min_spread false).passed = false
    ∧ (∀ amz : Option ℚ, (enforce_rule none amz min_spread false).passed = false) := by
  refine ⟨⟨rfl, rfl⟩, rfl, ?_⟩
  intro amz
  cases amz <;> rfl

/-- Claim C7: with the retail total unknown, the decision never passes,
whatever the supplier total and the soft-pass setting are. -/
theorem enforce_rule_retail_unknown (ae_total : Option ℚ) (min_spread : ℚ) (soft_pass : Bool) :
    (enforce_rule ae_total none min_spread soft_pass).passed = false := by
  cases ae_total <;> cases soft_pass <;> rfl

/-! Section: Supplier best-quote resolution
(fetch_aliexpress_total_best, revoa_import.py lines 753-769) -/

/-- What parse_aliexpress_price_shipping_sales extracts from one fetched
candidate page: optional item price, optional shipping fee, optional
sales (orders) count.  A page that could not be fetched at all is the
all-none value, matching the parser returning (None, None, None). -/
structure PageData where
  price : Option ℚ
  ship : Option ℚ
  sales : Option ℕ

/-- One entry of the results list built by fetch_aliexpress_total_best:
(total, url, sales or 0). -/
abbrev Quote : Type := ℚ × ℕ × ℕ

/-- The sort order used on the results list: the Python key is
(total, -sales), i.e. ascending total with ties broken by descending
sales count. -/
def quoteLE (x y : Quote) : Prop :=
  x.1 < y.1 ∨ (x.1 = y.1 ∧ y.2.2 ≤ x.2.2)

instance : DecidableRel quoteLE := fun x y =>
  inferInstanceAs (Decidable (x.1 < y.1 ∨ (x.1 = y.1 ∧ y.2.2 ≤ x.2.2)))

instance : IsTotal Quote quoteLE := by
  constructor
  intro a b
  rcases lt_trichotomy a.1 b.1 with h | h | h
  · exact Or.inl (Or.inl h)
  · rcases le_total b.2.2 a.2.2 with h2 | h2
    · exact Or.inl (Or.inr ⟨h, h2⟩)
    · exact Or.inr (Or.inr ⟨h.symm, h2⟩)
  · exact Or.inr (Or.inl h)

instance : IsTrans Quote quoteLE := by
  constructor
  intro a b c hab hbc
  rcases hab with h1 | ⟨h1, h1s⟩ <;> rcases hbc with h2 | ⟨h2, h2s⟩
  · exact Or.inl (h1.trans h2)
  · exact Or.inl (h2 ▸ h1)
  · exact Or.inl (h1 ▸ h2)
  · exact Or.inr ⟨h1.trans h2, h2s.trans h1s⟩

/-- The loop body of fetch_aliexpress_total_best for one candidate URL:
fetch and parse the page (modelled by the pages environment); skip the
candidate if no price was parsed or if its sales count — with a missing
count defaulted to 0, as in (sales or 0) — is below min_sales; otherwise
record (price + shipping, url, sales or 0), shipping defaulting to 0. -/
def evalCandidate (pages : ℕ → PageData) (min_sales : ℕ) (u : ℕ) : Option Quote :=
  match (pages u).price with
  | none => none
  | some p =>
    if (pages u).sales.getD 0 < min_sales then none
    else some (p + ((pages u).ship.getD 0), u, (pages u).sales.getD 0)

/-- Embedding of fetch_aliexpress_total_best(candidate_urls, min_sales,
top_n).  Only the first top_n candidate URLs are evaluated; the results
list is sorted by (total, -sales) — Python sort is stable, modelled by
the stable insertionSort — and the head gives (best_total, best_url);
an empty results list yields (None, None). -/
def fetch_aliexpress_total_best (pages : ℕ → PageData) (candidate_urls : List ℕ)
    (min_sales : ℕ) (top_n : ℕ) : Option ℚ × Option ℕ :=
  let results := (candidate_urls.take top_n).filterMap (evalCandidate pages min_sales)
  match (results.insertionSort quoteLE).head? with
  | none => (none, none)
  | some q => (some q.1, some q.2.1)

theorem quoteLE_refl (q : Quote) : quoteLE q q := Or.inr ⟨rfl, le_rfl⟩

/-- The head of the sorted results list is a member of the list and is
least for the (total, -sales) order. -/
theorem head_insertionSort_quote (l : List Quote) (q : Quote)
    (h : (l.insertionSort quoteLE).head? = some q) :
    q ∈ l ∧ ∀ r ∈ l, quoteLE q r := by
  have hperm := List.perm_insertionSort quoteLE l
  have hsorted := List.sorted_insertionSort quoteLE l
  rcases hs : l.insertionSort quoteLE with _ | ⟨a, rest⟩
  · rw [hs] at h; simp at h
  · rw [hs] at h
    simp only [List.head?_cons, Option.some.injEq] at h
    rw [hs] at hperm hsorted
    subst h
    constructor
    · exact hperm.mem_iff.mp (List.mem_cons_self _ _)
    · intro r hr
      have hm : r ∈ a :: rest := hperm.mem_iff.mpr hr
      rcases List.mem_cons.mp hm with he | hmem
      · exact he ▸ quoteLE_refl a
      · exact (List.pairwise_cons.mp hsorted).1 r hmem

/-- The sorted results list is empty iff the results list is. -/
theorem insertionSort_quote_eq_nil (l : List Quote) :
    (l.insertionSort quoteLE).head? = none ↔ l = [] := by
  rw [List.head?_eq_none_iff]
  constructor
  · intro h
    have := List.perm_insertionSort quoteLE l
    rw [h] at this
    exact this.symm.eq_nil
  · intro h
    subst h
    rfl

/-- Claim C5 (amended): a missing sales figure is defaulted to 0, so a
candidate with no sales figure is excluded whenever min_sales is at
least 1 (for min_sales = 0 it qualifies); among the evaluated candidates
with a parsable price and (defaulted) sales count at least min_sales,
the function returns the candidate minimizing total = price + shipping
(shipping defaulted to 0), breaking ties on equal totals by the highest
sales count; if no candidate qualifies it returns (none, none). -/
theorem fetch_best_minimizes (pages : ℕ → PageData) (min_sales top_n : ℕ) (urls : List ℕ) :
    (∀ u, evalCandidate pages min_sales u = none ↔
        ((pages u).price = none ∨ (pages u).sales.getD 0 < min_sales))
    ∧ (∀ u, 1 ≤ min_sales → (pages u).sales = none →
        evalCandidate pages min_sales u = none)
    ∧ (∀ u q, evalCandidate pages min_sales u = some q →
        ∃ p, (pages u).price = some p ∧ min_sales ≤ (pages u).sales.getD 0 ∧
          q = (p + (pages u).ship.getD 0, u, (pages u).sales.getD 0))
    ∧ ((urls.take top_n).filterMap (evalCandidate pages min_sales) = [] →
        fetch_aliexpress_total_best pages urls min_sales top_n = (none, none))
    ∧ (∀ t u, fetch_aliexpress_total_best pages urls min_sales top_n = (some t, some u) →
        ∃ s, (t, u, s) ∈ (urls.take top_n).filterMap (evalCandidate pages min_sales)
          ∧ (∀ q ∈ (urls.take top_n).filterMap (evalCandidate pages min_sales), t ≤ q.1)
          ∧ (∀ q ∈ (urls.take top_n).filterMap (evalCandidate pages min_sales),
               q.1 = t → q.2.2 ≤ s)) := by
  refine ⟨?_, ?_, ?_, ?_, ?_⟩
  · intro u
    simp only [evalCandidate]
    rcases hp : (pages u).price with _ | p
    · simp
    · simp only [Option.some_ne_none, false_or]
      split_ifs with h
      · simpa using h
      · simpa using h
  · intro u hms hs
    simp only [evalCandidate, hs]
    rcases hp : (pages u).price with _ | p
    · rfl
    · simp only [Option.getD_none]
      rw [if_pos (by omega)]
  · intro u q hq
    simp only [evalCandidate] at hq
    rcases hp : (pages u).price with _ | p <;> simp only [hp] at hq
    · exact absurd hq (by simp)
    · split_ifs at hq with h
      simp only [Option.some.injEq] at hq
      exact ⟨p, rfl, by omega, hq.symm⟩
  · intro hempty
    simp only [fetch_aliexpress_total_best, hempty]
    rfl
  · intro t u hfetch
    simp only [fetch_aliexpress_total_best] at hfetch
    rcases hh : (((urls.take top_n).filterMap
        (evalCandidate pages min_sales)).insertionSort quoteLE).head? with _ | q
    · rw [hh] at hfetch
      exact absurd hfetch (by simp)
    · rw [hh] at hfetch
      simp only [Prod.mk.injEq, Option.some.injEq] at hfetch
      obtain ⟨hq1, hq2⟩ := hfetch
      obtain ⟨hmem, hmin⟩ := head_insertionSort_quote _ _ hh
      refine ⟨q.2.2, ?_, ?_, ?_⟩
      · have he : (t, u, q.2.2) = q := by rw [← hq1, ← hq2]
        exact he ▸ hmem
      · intro r hr
        rcases hmin r hr with h | ⟨h, _⟩
        · exact hq1 ▸ h.le
        · exact hq1 ▸ h.le
      · intro r hr hrt
        rcases hmin r hr with h | ⟨h, hs⟩
        · exact absurd (hrt.trans hq1.symm) h.ne'
        · exact hs

/-- Supplier pages for the C5 counterexample: a single candidate page
with a parsable price, shipping 0 and no sales figure at all. -/
def pagesC5 : ℕ → PageData := fun _ => ⟨some 5, some 0, none⟩

/-- Claim C5, counterexample to the claim as stated: with min_sales = 0,
a candidate with no sales figure is not excluded — the code defaults the
missing count to 0 and 0 is not below min_sales — so the function
returns that candidate instead of (none, none). -/
theorem fetch_best_saleless_not_excluded :
    (pagesC5 0).sales = none
    ∧ fetch_aliexpress_total_best pagesC5 [0] 0 3 = (some 5, some 0) := by
  constructor
  · rfl
  · norm_num [fetch_aliexpress_total_best, evalCandidate, pagesC5,
      List.insertionSort, List.orderedInsert]

/-- Supplier pages for the C5 witness: a parsable price but no sales
figure. -/
def pagesW5 : ℕ → PageData := fun _ => ⟨some 9, none, none⟩

theorem fetch_best_minimizes_witness : evalCandidate pagesW5 1 7 = none :=
  (fetch_best_minimizes pagesW5 1 3 []).2.1 7 (by decide) rfl

/-- Claim C4 (amended): when the whole candidate list is evaluated
(length at most top_n), the best supplier total is invariant under any
permutation of the candidate list; the returned URL can differ between
permutations when several candidates tie on both total and sales. -/
theorem fetch_best_total_perm_invariant (pages : ℕ → PageData) (min_sales top_n : ℕ)
    (l l' : List ℕ) (hp : l.Perm l') (hl : l.length ≤ top_n) :
    (fetch_aliexpress_total_best pages l min_sales top_n).1 =
    (fetch_aliexpress_total_best pages l' min_sales top_n).1 := by
  have hl' : l'.length ≤ top_n := hp.length_eq ▸ hl
  have ht : l.take top_n = l := List.take_of_length_le hl
  have ht' : l'.take top_n = l' := List.take_of_length_le hl'
  have hres : (l.filterMap (evalCandidate pages min_sales)).Perm
      (l'.filterMap (evalCandidate pages min_sales)) := hp.filterMap _
  simp only [fetch_aliexpress_total_best, ht, ht']
  rcases hh : ((l.filterMap (evalCandidate pages min_sales)).insertionSort quoteLE).head?
      with _ | q
  · have hnil : l.filterMap (evalCandidate pages min_sales) = [] :=
      (insertionSort_quote_eq_nil _).mp hh
    have hnil' : l'.filterMap (evalCandidate pages min_sales) = [] :=
      (hnil ▸ hres).symm.eq_nil
    have hh' : ((l'.filterMap (evalCandidate pages min_sales)).insertionSort quoteLE).head?
        = none := (insertionSort_quote_eq_nil _).mpr hnil'
    rw [hh']
  · rcases hh' : ((l'.filterMap (evalCandidate pages min_sales)).insertionSort quoteLE).head?
        with _ | q'
    · have hnil' : l'.filterMap (evalCandidate pages min_sales) = [] :=
        (insertionSort_quote_eq_nil _).mp hh'
      have hnil : l.filterMap (evalCandidate pages min_sales) = [] :=
        (hnil' ▸ hres.symm).symm.eq_nil
      rw [(insertionSort_quote_eq_nil _).mpr hnil] at hh
      exact absurd hh (by simp)
    · obtain ⟨hqm, hqmin⟩ := head_insertionSort_quote _ _ hh
      obtain ⟨hqm', hqmin'⟩ := head_insertionSort_quote _ _ hh'
      have h1 : quoteLE q q' := hqmin q' (hres.mem_iff.mpr hqm')
      have h2 : quoteLE q' q := hqmin' q (hres.mem_iff.mp hqm)
      have : q.1 = q'.1 := by
        rcases h1 with h1 | ⟨h1, _⟩ <;> rcases h2 with h2 | ⟨h2, _⟩
        · exact absurd (h1.trans h2) (lt_irrefl _)
        · exact h2.symm
        · exact h1
        · exact h1
      simp [this]

/-- Supplier pages for the C4 counterexample: candidates 0, 1, 2 cost 10,
candidate 3 costs 1; candidates 4 and 5 tie exactly on total and sales. -/
def pagesC4 : ℕ → PageData := fun u =>
  if u = 3 then ⟨some 1, none, some 200⟩
  else if u = 4 ∨ u = 5 then ⟨some 7, none, some 150⟩
  else ⟨some 10, none, some 200⟩

/-- Claim C4, counterexample to the claim as stated: only the first
top_n = 3 candidate URLs are evaluated, so permuting a 4-element list
changes which candidates are seen and hence the best total; and on a
2-element list whose candidates tie on total and sales, permuting the
list changes which URL is returned. -/
theorem fetch_best_not_perm_invariant :
    ([3, 0, 1, 2] : List ℕ).Perm [0, 1, 2, 3]
    ∧ fetch_aliexpress_total_best pagesC4 [0, 1, 2, 3] 100 3 ≠
        fetch_aliexpress_total_best pagesC4 [3, 0, 1, 2] 100 3
    ∧ ([5, 4] : List ℕ).Perm [4, 5]
    ∧ (fetch_aliexpress_total_best pagesC4 [4, 5] 100 3).2 ≠
        (fetch_aliexpress_total_best pagesC4 [5, 4] 100 3).2 := by
  refine ⟨by decide, ?_, by decide, ?_⟩
  · norm_num [fetch_aliexpress_total_best, evalCandidate, pagesC4,
      List.insertionSort, List.orderedInsert, quoteLE]
  · norm_num [fetch_aliexpress_total_best, evalCandidate, pagesC4,
      List.insertionSort, List.orderedInsert, quoteLE]

/-- Supplier pages for the C4 witness. -/
def pagesW4 : ℕ → PageData := fun _ => ⟨some 5, none, some 100⟩

theorem fetch_best_total_perm_invariant_witness :
    (fetch_aliexpress_total_best pagesW4 [0, 1] 50 3).1 =
    (fetch_aliexpress_total_best pagesW4 [1, 0] 50 3).1 :=
  fetch_best_total_perm_invariant pagesW4 50 3 [0, 1] [1, 0] (by decide) (by decide)

/-! Section: Budgeted GIF encoder
(encode_gif_budgeted, revoa_import.py lines 1119-1149) -/

/-- The fixed descending list of target widths tried by the encoder. -/
def targets : List ℕ := [1080, 960, 864, 768, 720, 640]

/-- Python range(start, stop, -2) in closed form: start, start-2, ...
while the value stays strictly above stop. -/
def rangeDown2 (start stop : ℤ) : List ℤ :=
  (List.range (((start - stop).toNat + 1) / 2)).map (fun (i : ℕ) => start - 2 * (i : ℤ))

/-- The frame-rate sequence range(fps_target, fps_min - 1, -2) of the
encoder, e.g. 24, 22, ..., 10. -/
def fpsVals (fps_target fps_min : ℤ) : List ℤ := rangeDown2 fps_target (fps_min - 1)

/-- The (width, fps) pairs in the exact order the encoder's two nested
loops visit them: outer loop over widths, inner loop over frame rates. -/
def searchPairs (fps_target fps_min : ℤ) : List (ℕ × ℤ) :=
  targets.flatMap (fun w => (fpsVals fps_target fps_min).map (fun f => (w, f)))

/-- Whether the encode attempt for one (width, fps) pair produced a file
at or under the size cap.  The environment enc gives the size in MB of
the palette_gif output for that pair, or none when palette_gif fails. -/
def sizeFits (enc : ℕ → ℤ → Option ℚ) (size_cap_mb : ℚ) (p : ℕ × ℤ) : Bool :=
  match enc p.1 p.2 with
  | some mb => decide (mb ≤ size_cap_mb)
  | none => false

/-- Result of the budgeted encoder: a first-fit (width, fps, size), a
best-effort smallest oversized artifact (the Python function then
returns (gif, None, None, None, mb)), or nothing at all (all encode
attempts failed; Python returns all Nones). -/
inductive EncodeResult where
  | fit (w : ℕ) (fps : ℤ) (mb : ℚ)
  | bestEffort (mb : ℚ)
  | failed
deriving DecidableEq

/-- The last-resort loop over the leftover tmp files: keep the strictly
smallest size seen so far. -/
def minSize (l : List ℚ) : Option ℚ :=
  l.foldl (fun best mb =>
    match best with
    | none => some mb
    | some b => if mb < b then some mb else some b) none

/-- Embedding of encode_gif_budgeted: try every (width, fps) pair in
search order and return the first whose size fits the cap; otherwise
return the smallest size observed among the successful encodes, or
failure when no encode succeeded at all. -/
def encode_gif_budgeted (enc : ℕ → ℤ → Option ℚ) (size_cap_mb : ℚ)
    (fps_target fps_min : ℤ) : EncodeResult :=
  match (searchPairs fps_target fps_min).find? (sizeFits enc size_cap_mb) with
  | some p => EncodeResult.fit p.1 p.2 ((enc p.1 p.2).getD 0)
  | none =>
    match minSize ((searchPairs fps_target fps_min).filterMap (fun p => enc p.1 p.2)) with
    | some mb => EncodeResult.bestEffort mb
    | none => EncodeResult.failed

theorem mem_rangeDown2 (s t x : ℤ) :
    x ∈ rangeDown2 s t ↔ t < x ∧ x ≤ s ∧ (s - x) % 2 = 0 := by
  unfold rangeDown2
  rw [List.mem_map]
  constructor
  · rintro ⟨i, hi, rfl⟩
    rw [List.mem_range] at hi
    omega
  · rintro ⟨h1, h2, h3⟩
    refine ⟨(s - x).toNat / 2, ?_, ?_⟩
    · rw [List.mem_range]
      omega
    · omega

theorem pairwise_gt_rangeDown2 (s t : ℤ) : (rangeDown2 s t).Pairwise (fun a b => b < a) := by
  unfold rangeDown2
  rw [List.pairwise_map]
  refine List.Pairwise.imp ?_ (List.pairwise_lt_range _)
  intro a b h
  omega

/-- Strict priority order on (width, fps) pairs: larger width first,
then larger fps within a width. -/
def pairGT (p q : ℕ × ℤ) : Prop := q.1 < p.1 ∨ (p.1 = q.1 ∧ q.2 < p.2)

theorem mem_searchPairs (ft fm : ℤ) (w : ℕ) (f : ℤ) :
    (w, f) ∈ searchPairs ft fm ↔ w ∈ targets ∧ f ∈ fpsVals ft fm := by
  simp only [searchPairs, List.mem_flatMap, List.mem_map, Prod.mk.injEq]
  constructor
  · rintro ⟨a, ha, f', hf', rfl, rfl⟩
    exact ⟨ha, hf'⟩
  · rintro ⟨hw, hf⟩
    exact ⟨w, hw, f, hf, rfl, rfl⟩

theorem searchPairs_pairwise (ft fm : ℤ) : (searchPairs ft fm).Pairwise pairGT := by
  unfold searchPairs
  rw [List.pairwise_flatMap]
  constructor
  · intro w _
    rw [List.pairwise_map]
    exact (pairwise_gt_rangeDown2 _ _).imp (fun h => Or.inr ⟨rfl, h⟩)
  · have htp : targets.Pairwise (fun a b => b < a) := by decide
    refine htp.imp ?_
    rintro a b hab x hx y hy
    simp only [List.mem_map] at hx hy
    obtain ⟨f1, _, rfl⟩ := hx
    obtain ⟨f2, _, rfl⟩ := hy
    exact Or.inl hab

theorem minSize_aux (l : List ℚ) : ∀ b : ℚ,
    ∃ m, l.foldl (fun best mb =>
        match best with
        | none => some mb
        | some c => if mb < c then some mb else some c) (some b) = some m
      ∧ (m = b ∨ m ∈ l) ∧ m ≤ b ∧ ∀ s ∈ l, m ≤ s := by
  induction l with
  | nil => exact fun b => ⟨b, rfl, Or.inl rfl, le_rfl, by simp⟩
  | cons a l ih =>
    intro b
    simp only [List.foldl_cons]
    by_cases h : a < b
    · rw [if_pos h]
      obtain ⟨m, hm, hmem, hle, hall⟩ := ih a
      refine ⟨m, hm, ?_, hle.trans h.le, ?_⟩
      · rcases hmem with rfl | hmem
        · exact Or.inr (List.mem_cons_self _ _)
        · exact Or.inr (List.mem_cons_of_mem _ hmem)
      · intro s hs
        rcases List.mem_cons.mp hs with rfl | hs
        · exact hle
        · exact hall s hs
    · rw [if_neg h]
      obtain ⟨m, hm, hmem, hle, hall⟩ := ih b
      refine ⟨m, hm, ?_, hle, ?_⟩
      · rcases hmem with rfl | hmem
        · exact Or.inl rfl
        · exact Or.inr (List.mem_cons_of_mem _ hmem)
      · intro s hs
        rcases List.mem_cons.mp hs with rfl | hs
        · exact hle.trans (not_lt.mp h)
        · exact hall s hs

theorem minSize_spec (l : List ℚ) (hne : l ≠ []) :
    ∃ m, minSize l = some m ∧ m ∈ l ∧ ∀ s ∈ l, m ≤ s := by
  rcases l with _ | ⟨a, l⟩
  · exact absurd rfl hne
  · obtain ⟨m, hm, hmem, hle, hall⟩ := minSize_aux l a
    refine ⟨m, hm, ?_, ?_⟩
    · rcases hmem with rfl | hmem
      · exact List.mem_cons_self _ _
      · exact List.mem_cons_of_mem _ hmem
    · intro s hs
      rcases List.mem_cons.mp hs with rfl | hs
      · exact hle
      · exact hall s hs

/-- Claim C3: the budgeted encoder walks the fixed strictly descending
width list; at each width it walks the frame rates from fps_target down
to fps_min in steps of 2; it returns the first (width, fps) whose
encoded size is at or under the cap — so when a fit at (w, f) is
returned, every pair at a larger width and every faster frame rate at
the same width failed to fit — and when no pair fits but at least one
encode succeeded, it returns the smallest observed size as a
best-effort result instead of an error. -/
theorem encode_gif_budgeted_spec (enc : ℕ → ℤ → Option ℚ) (size_cap_mb : ℚ) (ft fm : ℤ) :
    targets.Pairwise (fun a b => b < a)
    ∧ (∀ f, f ∈ fpsVals ft fm ↔ (fm ≤ f ∧ f ≤ ft ∧ (ft - f) % 2 = 0))
    ∧ (∀ w f mb, encode_gif_budgeted enc size_cap_mb ft fm = EncodeResult.fit w f mb →
        enc w f = some mb ∧ mb ≤ size_cap_mb ∧ w ∈ targets ∧ f ∈ fpsVals ft fm
        ∧ (∀ w' ∈ targets, w < w' → ∀ f' ∈ fpsVals ft fm,
            sizeFits enc size_cap_mb (w', f') = false)
        ∧ (∀ f' ∈ fpsVals ft fm, f < f' → sizeFits enc size_cap_mb (w, f') = false))
    ∧ ((∀ p ∈ searchPairs ft fm, sizeFits enc size_cap_mb p = false) →
        ((searchPairs ft fm).filterMap (fun p => enc p.1 p.2) = [] →
          encode_gif_budgeted enc size_cap_mb ft fm = EncodeResult.failed)
        ∧ ((searchPairs ft fm).filterMap (fun p => enc p.1 p.2) ≠ [] →
          ∃ mb, encode_gif_budgeted enc size_cap_mb ft fm = EncodeResult.bestEffort mb
            ∧ mb ∈ (searchPairs ft fm).filterMap (fun p => enc p.1 p.2)
            ∧ ∀ s ∈ (searchPairs ft fm).filterMap (fun p => enc p.1 p.2), mb ≤ s)) := by
  refine ⟨by decide, ?_, ?_, ?_⟩
  · intro f
    rw [fpsVals, mem_rangeDown2]
    omega
  · intro w f mb hres
    unfold encode_gif_budgeted at hres
    rcases hfind : (searchPairs ft fm).find? (sizeFits enc size_cap_mb) with _ | p
    · rw [hfind] at hres
      rcases hmin : minSize ((searchPairs ft fm).filterMap (fun p => enc p.1 p.2)) with _ | mb0 <;>
        rw [hmin] at hres <;> exact absurd hres (by simp)
    · rw [hfind] at hres
      simp only [EncodeResult.fit.injEq] at hres
      obtain ⟨hw, hf, hmb⟩ := hres
      obtain ⟨hfits, as, bs, hsplit, hpre⟩ := List.find?_eq_some.mp hfind
      rcases he : enc p.1 p.2 with _ | mb0
      · simp only [sizeFits, he] at hfits
        exact absurd hfits Bool.false_ne_true
      have hmbe : mb = mb0 := by rw [← hmb, he]; rfl
      have henc : enc w f = some mb := by rw [← hw, ← hf, he, hmbe]
      have hcap : mb ≤ size_cap_mb := by
        simp only [sizeFits, he, decide_eq_true_eq] at hfits
        rw [hmbe]
        exact hfits
      have hpmem : p ∈ searchPairs ft fm := List.mem_of_find?_eq_some hfind
      have hwf : (w, f) ∈ searchPairs ft fm := by
        rw [← hw, ← hf]
        exact hpmem
      have hmem := (mem_searchPairs ft fm w f).mp hwf
      have hPW := searchPairs_pairwise ft fm
      rw [hsplit] at hPW
      obtain ⟨hPWas, hPWcons, hPWcross⟩ := List.pairwise_append.mp hPW
      have hbs : ∀ y ∈ bs, pairGT p y := (List.pairwise_cons.mp hPWcons).1
      have hinas : ∀ w' f', ((w < w' ∧ w' ∈ targets ∧ f' ∈ fpsVals ft fm)
          ∨ (w' = w ∧ f < f' ∧ f' ∈ fpsVals ft fm)) → (w', f') ∈ as := by
        rintro w' f' hcase
        have hin : (w', f') ∈ searchPairs ft fm := by
          rcases hcase with ⟨_, hw', hf'⟩ | ⟨heqw, _, hf'⟩
          · exact (mem_searchPairs ft fm w' f').mpr ⟨hw', hf'⟩
          · refine (mem_searchPairs ft fm w' f').mpr ⟨?_, hf'⟩
            rw [heqw]
            exact hmem.1
        rw [hsplit] at hin
        rcases List.mem_append.mp hin with hin | hin
        · exact hin
        · exfalso
          rcases List.mem_cons.mp hin with heq | hin
          · have hww : w' = w := by rw [← heq] at hw; exact hw
            have hff : f' = f := by rw [← heq] at hf; exact hf
            rcases hcase with ⟨hlt, _, _⟩ | ⟨heqw, hlt, _⟩ <;> omega
          · have hPT := hbs _ hin
            rcases hPT with hlt | ⟨heq, hlt⟩
            · have h1 : w' < w := by rw [← hw]; exact hlt
              rcases hcase with ⟨hlt2, _, _⟩ | ⟨heqw, _, _⟩ <;> omega
            · have h1 : w = w' := by rw [← hw]; exact heq
              have h2 : f' < f := by rw [← hf]; exact hlt
              rcases hcase with ⟨hlt2, _, _⟩ | ⟨heqw, hlt2, _⟩ <;> omega
      refine ⟨henc, hcap, hmem.1, hmem.2, ?_, ?_⟩
      · intro w' hw' hlt f' hf'
        have := hpre _ (hinas w' f' (Or.inl ⟨hlt, hw', hf'⟩))
        simpa using this
      · intro f' hf' hlt
        have := hpre _ (hinas w f' (Or.inr ⟨rfl, hlt, hf'⟩))
        simpa using this
  · intro hnofit
    have hfind : (searchPairs ft fm).find? (sizeFits enc size_cap_mb) = none :=
      List.find?_eq_none.mpr (fun x hx => by rw [hnofit x hx]; simp)
    constructor
    · intro hempty
      unfold encode_gif_budgeted
      rw [hfind, hempty]
      rfl
    · intro hne
      obtain ⟨m, hm, hmem, hall⟩ := minSize_spec _ hne
      refine ⟨m, ?_, hmem, hall⟩
      unfold encode_gif_budgeted
      rw [hfind, hm]

/-- Encode environment for the C3 witness: the very first pair tried,
width 1080 at 24 fps, already fits the cap. -/
def encW : ℕ → ℤ → Option ℚ := fun w f => if w = 1080 ∧ f = 24 then some 5 else some 100

theorem encode_gif_budgeted_spec_witness : encW 1080 24 = some 5 ∧ (5 : ℚ) ≤ 10 :=
  have h := (encode_gif_budgeted_spec encW 10 24 10).2.2.1 1080 24 5 (by decide)
  ⟨h.1, h.2.1⟩

/-! Section: Clean-window detection
(find_clean_windows, revoa_import.py lines 1044-1079) -/

/-- Textiness score threshold under which a sampled frame is clean. -/
def cleanThresh : ℚ := 35/100

/-- Fraction of clean samples a window must reach to be admitted. -/
def ratioNeeded : ℚ := 9/10

/-- np.linspace(lo, hi, num): num evenly spaced points from lo to hi
inclusive (only used with num = 8 and num = 4 here, as in the source). -/
def linspace (lo hi : ℚ) (num : ℕ) : List ℚ :=
  (List.range num).map (fun (i : ℕ) => lo + (hi - lo) * (i : ℚ) / ((num : ℚ) - 1))

/-- The sampled (time, score) pairs lying inside the window from a to b,
the mask (arr_t >= a) & (arr_t <= b) of the source. -/
def containedSamples (samples : List (ℚ × ℚ)) (a b : ℚ) : List (ℚ × ℚ) :=
  samples.filter (fun pr => decide (a ≤ pr.1) && decide (pr.1 ≤ b))

/-- Fraction of the contained samples whose textiness score is strictly
below the cleanliness threshold. -/
def cleanFrac (samples : List (ℚ × ℚ)) (a b : ℚ) : ℚ :=
  (((containedSamples samples a b).filter (fun pr => decide (pr.2 < cleanThresh))).length : ℚ)
    / ((containedSamples samples a b).length : ℚ)

/-- The candidate grid of find_clean_windows: 8 anchors spread over the
duration crossed with 4 window lengths between min_s and max_s; the end
is clipped to the duration; a window is skipped when it contains fewer
than 3 samples and admitted when at least 90% of its samples are clean.
Entries are (clean_ratio, start, stop) as appended by the source. -/
def candWindows (samples : List (ℚ × ℚ)) (dur min_s max_s : ℚ) : List (ℚ × ℚ × ℚ) :=
  (linspace 0 (max (1/10) (dur - min_s)) 8).flatMap fun a =>
    (linspace min_s max_s 4).filterMap fun L =>
      let b := min dur (a + L)
      if (containedSamples samples a b).length < 3 then none
      else if ratioNeeded ≤ cleanFrac samples a b then some (cleanFrac samples a b, a, b)
      else none

/-- Sort order used on the candidates: the Python key (-ratio, start),
i.e. clean ratio descending with ties broken by ascending start. -/
def candLE (x y : ℚ × ℚ × ℚ) : Prop :=
  y.1 < x.1 ∨ (x.1 = y.1 ∧ x.2.1 ≤ y.2.1)

instance : DecidableRel candLE := fun x y =>
  inferInstanceAs (Decidable (y.1 < x.1 ∨ (x.1 = y.1 ∧ x.2.1 ≤ y.2.1)))

instance : IsTotal (ℚ × ℚ × ℚ) candLE := by
  constructor
  intro a b
  rcases lt_trichotomy a.1 b.1 with h | h | h
  · exact Or.inr (Or.inl h)
  · rcases le_total a.2.1 b.2.1 with h2 | h2
    · exact Or.inl (Or.inr ⟨h, h2⟩)
    · exact Or.inr (Or.inr ⟨h.symm, h2⟩)
  · exact Or.inl (Or.inl h)

instance : IsTrans (ℚ × ℚ × ℚ) candLE := by
  constructor
  intro a b c hab hbc
  rcases hab with h1 | ⟨h1, h1s⟩ <;> rcases hbc with h2 | ⟨h2, h2s⟩
  · exact Or.inl (h2.trans h1)
  · exact Or.inl (h2 ▸ h1)
  · exact Or.inl (h1 ▸ h2)
  · exact Or.inr ⟨h1.trans h2, h1s.trans h2s⟩

/-- The candidates in the order the selection loop consumes them:
sorted best ratio first, earliest start on ties (stable sort, modelling
Python candidates.sort(key=lambda x: (-x[0], x[1]))). -/
def rankedCands (samples : List (ℚ × ℚ)) (dur min_s max_s : ℚ) : List (ℚ × ℚ × ℚ) :=
  (candWindows samples dur min_s max_s).insertionSort candLE

/-- One step of the greedy non-maximum-suppression selection loop over
the ranked candidates: do nothing once wanted windows are selected
(Python breaks there), skip a candidate whose start is within 1 second
of an already selected start, otherwise append (start, stop, score). -/
def selStep (wanted : ℕ) (sel : List (ℚ × ℚ × ℚ)) (c : ℚ × ℚ × ℚ) : List (ℚ × ℚ × ℚ) :=
  if wanted ≤ sel.length then sel
  else if sel.any (fun s => decide (|c.2.1 - s.1| < 1)) then sel
  else sel ++ [(c.2.1, c.2.2, c.1)]

/-- The selection loop of find_clean_windows. -/
def selectWins (cands : List (ℚ × ℚ × ℚ)) (wanted : ℕ) : List (ℚ × ℚ × ℚ) :=
  cands.foldl (selStep wanted) []

/-- One returned window: {start, end, score} (end is called stop since
end is reserved in Lean). -/
structure Win where
  start : ℚ
  stop : ℚ
  score : ℚ
deriving DecidableEq

/-- Embedding of find_clean_windows(mp4, aspect, min_s, max_s, wanted).
samples abstracts the (time, score) list produced by
sample_frames_for_scoring and dur the probed duration; the crop box of
the returned dict plays no role in any claim and is omitted.  A
non-positive duration or an empty sample list returns no windows. -/
def find_clean_windows (samples : List (ℚ × ℚ)) (dur min_s max_s : ℚ) (wanted : ℕ) :
    List Win :=
  if dur ≤ 0 ∨ samples.isEmpty then []
  else
    ((selectWins (rankedCands samples dur min_s max_s) wanted).take wanted).map
      fun x => ⟨x.1, x.2.1, x.2.2⟩

theorem selectWins_go_subset (wanted : ℕ) (x : ℚ × ℚ × ℚ) :
    ∀ (cands sel : List (ℚ × ℚ × ℚ)), x ∈ cands.foldl (selStep wanted) sel →
      x ∈ sel ∨ ∃ c ∈ cands, x = (c.2.1, c.2.2, c.1) := by
  intro cands
  induction cands with
  | nil => exact fun sel hsel => Or.inl hsel
  | cons c cands ih =>
    intro sel hsel
    rw [List.foldl_cons] at hsel
    rcases ih _ hsel with hm | ⟨c', hc', he⟩
    · unfold selStep at hm
      split_ifs at hm with h1 h2
      · exact Or.inl hm
      · exact Or.inl hm
      · rcases List.mem_append.mp hm with hm | hm
        · exact Or.inl hm
        · rcases List.mem_cons.mp hm with he | hm
          · exact Or.inr ⟨c, List.mem_cons_self _ _, he⟩
          · exact absurd hm (List.not_mem_nil x)
    · exact Or.inr ⟨c', List.mem_cons_of_mem _ hc', he⟩

/-- Every selected entry comes from the candidate list, with its fields
rearranged from (ratio, start, stop) to (start, stop, ratio). -/
theorem selectWins_subset (cands : List (ℚ × ℚ × ℚ)) (wanted : ℕ) (x : ℚ × ℚ × ℚ)
    (hx : x ∈ selectWins cands wanted) : ∃ c ∈ cands, x = (c.2.1, c.2.2, c.1) := by
  rcases selectWins_go_subset wanted x cands [] hx with hm | hdone
  · exact absurd hm (List.not_mem_nil x)
  · exact hdone

theorem selectWins_go_pairwise (wanted : ℕ) :
    ∀ (cands sel : List (ℚ × ℚ × ℚ)), sel.Pairwise (fun x y => 1 ≤ |x.1 - y.1|) →
      (cands.foldl (selStep wanted) sel).Pairwise (fun x y => 1 ≤ |x.1 - y.1|) := by
  intro cands
  induction cands with
  | nil => exact fun sel hsel => hsel
  | cons c cands ih =>
    intro sel hsel
    rw [List.foldl_cons]
    apply ih
    unfold selStep
    split_ifs with h1 h2
    · exact hsel
    · exact hsel
    · refine List.pairwise_append.mpr ⟨hsel, List.pairwise_singleton _ _, ?_⟩
      intro s hs y hy
      have hy2 : y = (c.2.1, c.2.2, c.1) := List.mem_singleton.mp hy
      have h2f : (sel.any fun s => decide (|c.2.1 - s.1| < 1)) = false := by
        simpa using h2
      have hns := List.any_eq_false.mp h2f s hs
      simp only [decide_eq_true_eq] at hns
      rw [hy2]
      show 1 ≤ |s.1 - c.2.1|
      rw [abs_sub_comm]
      exact not_lt.mp hns

/-- The selection loop keeps selected starts at least 1 second apart. -/
theorem selectWins_pairwise (cands : List (ℚ × ℚ × ℚ)) (wanted : ℕ) :
    (selectWins cands wanted).Pairwise (fun x y => 1 ≤ |x.1 - y.1|) :=
  selectWins_go_pairwise wanted cands [] List.Pairwise.nil

theorem linspace_mem_bounds (lo hi : ℚ) (num : ℕ) (h : lo ≤ hi) (x : ℚ)
    (hx : x ∈ linspace lo hi num) : lo ≤ x ∧ x ≤ hi := by
  unfold linspace at hx
  rw [List.mem_map] at hx
  obtain ⟨i, him, rfl⟩ := hx
  rw [List.mem_range] at him
  have hd : (0 : ℚ) ≤ (num : ℚ) - 1 := by
    have h1 : (1 : ℕ) ≤ num := by omega
    have h2 : (1 : ℚ) ≤ (num : ℚ) := by exact_mod_cast h1
    linarith
  have hnum : (i : ℚ) ≤ (num : ℚ) - 1 := by
    have h1 : (i : ℕ) + 1 ≤ num := him
    have h2 : (i : ℚ) + 1 ≤ (num : ℚ) := by exact_mod_cast h1
    linarith
  constructor
  · have hpos : 0 ≤ (hi - lo) * (i : ℚ) / ((num : ℚ) - 1) :=
      div_nonneg (mul_nonneg (by linarith) (by positivity)) hd
    linarith
  · rcases eq_or_lt_of_le hd with hd0 | hd0
    · have hnum1 : (num : ℚ) = 1 := by linarith
      have hn1 : num = 1 := by exact_mod_cast hnum1
      have hi0 : i = 0 := by omega
      subst hi0
      simp only [Nat.cast_zero, mul_zero, zero_div, add_zero]
      exact h
    · have hle : (hi - lo) * (i : ℚ) / ((num : ℚ) - 1) ≤ hi - lo := by
        rw [div_le_iff₀ hd0]
        have := mul_le_mul_of_nonneg_left hnum (show (0:ℚ) ≤ hi - lo by linarith)
        linarith
      linarith

/-- Any window with at least 3 contained samples of strictly increasing
times spans a nonempty time interval. -/
theorem window_nonempty_of_samples (samples : List (ℚ × ℚ)) (a b : ℚ)
    (hP : samples.Pairwise (fun pr qr => pr.1 < qr.1))
    (hlen : 3 ≤ (containedSamples samples a b).length) : a < b := by
  have hPf : (containedSamples samples a b).Pairwise (fun pr qr => pr.1 < qr.1) :=
    hP.filter _
  rcases hcs : containedSamples samples a b with _ | ⟨p, rest⟩
  · rw [hcs] at hlen
    simp at hlen
  · rcases rest with _ | ⟨q, rest2⟩
    · rw [hcs] at hlen
      simp at hlen
    · rw [hcs] at hPf
      have hpq : p.1 < q.1 := (List.pairwise_cons.mp hPf).1 q (List.mem_cons_self _ _)
      have hp : p ∈ containedSamples samples a b := by
        rw [hcs]
        exact List.mem_cons_self _ _
      have hq : q ∈ containedSamples samples a b := by
        rw [hcs]
        exact List.mem_cons_of_mem _ (List.mem_cons_self _ _)
      rw [containedSamples, List.mem_filter] at hp hq
      have hp2 := hp.2
      have hq2 := hq.2
      simp only [Bool.and_eq_true, decide_eq_true_eq] at hp2 hq2
      linarith [hp2.1, hq2.2]

/-- Claim C8: every admitted candidate window contains at least 3
sampled frames and has clean fraction (the fraction of its samples
scoring below the 0.35 threshold) at least 0.90, and its recorded ratio
is exactly that clean fraction; before selection the candidates are
ranked by clean fraction descending with ties broken by ascending start
(the ranked list is sorted for that order and is a permutation of the
candidate list). -/
theorem find_clean_windows_admission (samples : List (ℚ × ℚ)) (dur min_s max_s : ℚ) :
    ((candWindows samples dur min_s max_s).all fun c =>
        decide (3 ≤ (containedSamples samples c.2.1 c.2.2).length)
        && decide (ratioNeeded ≤ c.1)
        && decide (c.1 = cleanFrac samples c.2.1 c.2.2)) = true
    ∧ (rankedCands samples dur min_s max_s).Pairwise candLE
    ∧ (rankedCands samples dur min_s max_s).Perm (candWindows samples dur min_s max_s) := by
  refine ⟨?_, List.sorted_insertionSort candLE _, List.perm_insertionSort candLE _⟩
  rw [List.all_eq_true]
  intro c hc
  unfold candWindows at hc
  rw [List.mem_flatMap] at hc
  obtain ⟨a, ha, hc⟩ := hc
  rw [List.mem_filterMap] at hc
  obtain ⟨L, hL, heq⟩ := hc
  dsimp only at heq
  split_ifs at heq with h1 h2
  rw [Option.some.injEq] at heq
  subst heq
  simp only [Bool.and_eq_true, decide_eq_true_eq]
  exact ⟨⟨by omega, h2⟩, trivial⟩

/-- Claim C9: any two windows returned by find_clean_windows have start
times at least 1 second apart, and at most wanted windows are
returned. -/
theorem find_clean_windows_spacing (samples : List (ℚ × ℚ)) (dur min_s max_s : ℚ) (wanted : ℕ) :
    (find_clean_windows samples dur min_s max_s wanted).Pairwise
      (fun x y => 1 ≤ |x.start - y.start|)
    ∧ (find_clean_windows samples dur min_s max_s wanted).length ≤ wanted := by
  unfold find_clean_windows
  split_ifs with hcase
  · exact ⟨List.Pairwise.nil, by simp⟩
  · constructor
    · rw [List.pairwise_map]
      exact (selectWins_pairwise _ _).sublist (List.take_sublist _ _)
    · rw [List.length_map, List.length_take]
      exact min_le_left _ _

/-- Claim C10: every window returned by find_clean_windows lies inside
the probed video: nonnegative start, start strictly before the end, end
at most the duration, and length at most max_s.  The sample times are
assumed strictly increasing (they are frame timestamps idx/fps for
strictly increasing idx) and min_s at most max_s (the caller passes
3.0 and 6.0). -/
theorem find_clean_windows_bounds (samples : List (ℚ × ℚ)) (dur min_s max_s : ℚ) (wanted : ℕ)
    (htimes : samples.Pairwise (fun pr qr => pr.1 < qr.1)) (hms : min_s ≤ max_s) :
    ((find_clean_windows samples dur min_s max_s wanted).all fun win =>
        decide (0 ≤ win.start) && decide (win.start < win.stop)
        && decide (win.stop ≤ dur) && decide (win.stop - win.start ≤ max_s)) = true := by
  unfold find_clean_windows
  split_ifs with hcase
  · rfl
  · rw [List.all_eq_true]
    intro win hwin
    rw [List.mem_map] at hwin
    obtain ⟨x, hxt, rfl⟩ := hwin
    have hxs : x ∈ selectWins (rankedCands samples dur min_s max_s) wanted :=
      List.mem_of_mem_take hxt
    obtain ⟨c, hc, rfl⟩ := selectWins_subset _ _ _ hxs
    have hcw : c ∈ candWindows samples dur min_s max_s := by
      rw [rankedCands] at hc
      exact (List.mem_insertionSort candLE).mp hc
    unfold candWindows at hcw
    rw [List.mem_flatMap] at hcw
    obtain ⟨a, ha, hcw⟩ := hcw
    rw [List.mem_filterMap] at hcw
    obtain ⟨L, hL, heq⟩ := hcw
    dsimp only at heq
    split_ifs at heq with h1 h2
    rw [Option.some.injEq] at heq
    subst heq
    have hanchor : 0 ≤ a ∧ a ≤ max (1/10) (dur - min_s) :=
      linspace_mem_bounds 0 _ 8 (le_max_of_le_left (by norm_num)) a ha
    have hLb : min_s ≤ L ∧ L ≤ max_s := linspace_mem_bounds min_s max_s 4 hms L hL
    have hab : a < min dur (a + L) :=
      window_nonempty_of_samples samples a _ htimes (by omega)
    simp only [Bool.and_eq_true, decide_eq_true_eq]
    refine ⟨⟨⟨hanchor.1, hab⟩, min_le_left _ _⟩, ?_⟩
    have hmin : min dur (a + L) ≤ a + L := min_le_right _ _
    linarith [hLb.2]

theorem find_clean_windows_bounds_witness :
    ((find_clean_windows [] 10 3 6 3).all fun win =>
        decide (0 ≤ win.start) && decide (win.start < win.stop)
        && decide (win.stop ≤ (10 : ℚ)) && decide (win.stop - win.start ≤ (6 : ℚ))) = true :=
  find_clean_windows_bounds [] 10 3 6 3 List.Pairwise.nil (by decide)

/-! Section: Orchestrator pricing gate
(main, revoa_import.py lines 1700-1803, with collect_and_upload lines
604-626 and auto_build_gifs lines 1151-1202 contributing the upload
calls) -/

/-- Observable events of one candidate's processing turn: the pricing
decision with its passed flag, and each storage-upload call. -/
inductive Ev where
  | decideEv (passed : Bool)
  | uploadEv
deriving DecidableEq

/-- Terminal disposition of one candidate inside the loop. -/
inductive Outcome where
  | skippedMissingUrl
  | skippedPricing
  | queued
deriving DecidableEq

/-- The per-candidate record fields that the pricing and asset phase of
main reads.  assetsDirUploads counts the files collect_and_upload would
upload from assets_dir; hasGifsInAssets whether those include GIFs
(auto_build_gifs is only invoked otherwise); gifUploadCount how many
GIFs auto_build_gifs would encode and upload. -/
structure CandidateRec where
  amazon_url : Option ℕ
  ae_candidates : List ℕ
  ae_search_terms : List ℕ
  aliexpress_url : Option ℕ
  supplier_price : Option ℚ
  use_supplier_fallback : Bool
  allow_soft_pass : Bool
  min_sales : ℕ
  top_n : ℕ
  assetsDirUploads : ℕ
  hasGifsInAssets : Bool
  gifUploadCount : ℕ

/-- The external world of one candidate turn: the Amazon Prime price
lookup, the AliExpress candidate pages, and the search-terms fallback
resolver (search_aliexpress_and_pick_best as a black box). -/
structure Env where
  amazonPrice : ℕ → Option ℚ
  aePages : ℕ → PageData
  searchBest : List ℕ → Option ℚ × Option ℕ

/-- Steps 1-3 of the supplier price resolution in main: explicit
candidate URLs first, then the search-terms fallback when still
unresolved, then the supplier_price field fallback. -/
def resolve_supplier_total (env : Env) (rec : CandidateRec) : Option ℚ × Option ℕ :=
  let r1 := if rec.ae_candidates.isEmpty then ((none : Option ℚ), (none : Option ℕ))
    else fetch_aliexpress_total_best env.aePages rec.ae_candidates rec.min_sales rec.top_n
  let r2 := if r1.1 = none ∧ ¬ rec.ae_search_terms.isEmpty
    then env.searchBest rec.ae_search_terms else r1
  if r2.1 = none ∧ rec.supplier_price ≠ none ∧ rec.use_supplier_fallback then
    (rec.supplier_price,
      match rec.ae_candidates with
      | [] => rec.aliexpress_url
      | u :: _ => some u)
  else r2

/-- One candidate's pass through the pricing gate and asset phase of
main: a missing Amazon URL skips the candidate with no events; otherwise
the pricing rule is enforced on the resolved totals (min_spread 20,
soft-pass per the record) and only a passed decision reaches
collect_and_upload and, when the assets held no GIFs, auto_build_gifs.
The trace lists the decision and every upload call in program order. -/
def process_candidate (env : Env) (rec : CandidateRec) : Outcome × List Ev :=
  match rec.amazon_url with
  | none => (Outcome.skippedMissingUrl, [])
  | some amz_url =>
    let d := enforce_rule (resolve_supplier_total env rec).1 (env.amazonPrice amz_url)
      20 rec.allow_soft_pass
    if d.passed then
      (Outcome.queued,
        Ev.decideEv d.passed ::
          (List.replicate rec.assetsDirUploads Ev.uploadEv ++
            (if rec.hasGifsInAssets then []
             else List.replicate rec.gifUploadCount Ev.uploadEv)))
    else (Outcome.skippedPricing, [Ev.decideEv d.passed])

/-- Claim C2: in one candidate's processing turn, every upload call in
the trace is preceded by a passed pricing decision, and a candidate
whose decision is not passed is recorded as skipped and produces no
upload call at all. -/
theorem orchestrator_pricing_gate (env : Env) (rec : CandidateRec) :
    (∀ pre post, (process_candidate env rec).2 = pre ++ Ev.uploadEv :: post →
        Ev.decideEv true ∈ pre)
    ∧ (Ev.decideEv false ∈ (process_candidate env rec).2 →
        (process_candidate env rec).1 = Outcome.skippedPricing
          ∧ Ev.uploadEv ∉ (process_candidate env rec).2) := by
  rcases hr : rec.amazon_url with _ | amz
  · simp only [process_candidate, hr]
    constructor
    · intro pre post h
      exact absurd h.symm (by simp)
    · intro h
      simp at h
  · by_cases hp : (enforce_rule (resolve_supplier_total env rec).1 (env.amazonPrice amz)
        20 rec.allow_soft_pass).passed
    · simp only [process_candidate, hr, hp, if_true]
      have hrest : ∀ e ∈ List.replicate rec.assetsDirUploads Ev.uploadEv ++
          (if rec.hasGifsInAssets then []
           else List.replicate rec.gifUploadCount Ev.uploadEv), e = Ev.uploadEv := by
        intro e he
        rcases List.mem_append.mp he with h | h
        · exact List.eq_of_mem_replicate h
        · split_ifs at h with hg
          · exact absurd h (List.not_mem_nil e)
          · exact List.eq_of_mem_replicate h
      constructor
      · intro pre post h
        rcases pre with _ | ⟨e, pre⟩
        · rw [List.nil_append] at h
          have := (List.cons.injEq _ _ _ _).mp h
          exact absurd this.1 (by simp)
        · rw [List.cons_append] at h
          have he := ((List.cons.injEq _ _ _ _).mp h).1
          rw [he]
          exact List.mem_cons_self _ _
      · intro hmem
        exfalso
        rcases List.mem_cons.mp hmem with he | hmem
        · exact absurd he (by simp)
        · have := hrest _ hmem
          exact absurd this (by simp)
    · have hpf : (enforce_rule (resolve_supplier_total env rec).1 (env.amazonPrice amz)
          20 rec.allow_soft_pass).passed = false := by
        simpa using hp
      simp only [process_candidate, hr, hpf, Bool.false_eq_true, if_false]
      constructor
      · intro pre post h
        have hm : Ev.uploadEv ∈ ([Ev.decideEv false] : List Ev) := by
          rw [h]
          simp
        simp at hm
      · intro hmem
        exact ⟨trivial, by simp⟩

/-- Environment for the C2 witness: a known Amazon price, unreadable
AliExpress pages, an unsuccessful search fallback. -/
def envW : Env := ⟨fun _ => some 40, fun _ => ⟨none, none, none⟩, fun _ => (none, none)⟩

/-- Candidate record for the C2 witness: soft-pass allowed, no explicit
supplier candidates, no pre-supplied assets, one auto GIF upload. -/
def recW : CandidateRec := ⟨some 0, [], [], none, none, false, true, 100, 3, 0, false, 1⟩

theorem orchestrator_pricing_gate_witness : Ev.decideEv true ∈ [Ev.decideEv true] :=
  (orchestrator_pricing_gate envW recW).1 [Ev.decideEv true] [] (by decide)

end Revoa
